import Mathlib

/-!
Shallow embedding of the virtual-hangout room synchronization service.

The server-side room state and its event handlers are translated from the
socket server source (room join/leave/disconnect, player actions, queue
operations, the chat ring buffer and the vote-to-advance consensus engine);
the client-side latency reconciliation is translated from the player
component's sync-event subscription. Each handler is modelled as a pure
function from the room state and the event's payload to the updated room
state together with the ordered list of outbound emissions it performs.
-/

/-- A room participant as stored in the room's participants array. -/
structure Participant where
  id : String
  name : String
  isHost : Bool
  isMuted : Bool
  isCameraOff : Bool
deriving DecidableEq

/-- An entry of the shared video queue. -/
structure QueueItem where
  id : String
  videoId : String
  title : String
  thumbnail : String
  addedBy : String
  duration : Option String
deriving DecidableEq

/-- A chat message; timestamp is epoch milliseconds. -/
structure ChatMessage where
  id : String
  senderId : String
  senderName : String
  content : String
  timestamp : Nat
  isSystem : Option Bool
deriving DecidableEq

/-- Reported player state. The server itself only ever assigns playing and
paused; the other values are reported by clients. -/
inductive PlayerState where
  | unstarted
  | playing
  | paused
  | buffering
  | ended
deriving DecidableEq

/-- The three reported player actions of the player:action event. -/
inductive PlayerAction where
  | play
  | pause
  | seek
deriving DecidableEq

/-- Per-room server state. The JS votes Set is modelled as its
insertion-ordered, duplicate-free backing list, so its length is the Set's
size and Array.from of it is the list itself. currentVideoIndex is an
unchecked JS number, modelled as an integer; currentTime is a JS number of
seconds, modelled as a rational. -/
structure RoomState where
  participants : List Participant
  queue : List QueueItem
  messages : List ChatMessage
  votes : List String
  currentVideoIndex : Int
  playerState : PlayerState
  currentTime : ℚ
deriving DecidableEq

/-- Destination of an outbound emission: io.to(roomId).emit reaches every
connection in the room including the sender (toAll); socket.to(roomId).emit
reaches every connection except the sender (toOthers); socket.emit is a
unicast to the sender only (toSender). -/
inductive Dest where
  | toAll
  | toOthers
  | toSender
deriving DecidableEq

/-- Outbound event payloads emitted by the room handlers. -/
inductive Payload where
  | roomJoined (participants : List Participant) (queue : List QueueItem)
      (messages : List ChatMessage) (votes : List String)
      (currentVideoIndex : Int) (playerState : PlayerState) (currentTime : ℚ)
  | participantJoined (p : Participant)
  | participantLeft (id : String)
  | playerSync (action : PlayerAction) (videoTime : ℚ) (serverTime : ℚ)
      (initiator : String)
  | queueUpdated (queue : List QueueItem)
  | queueVideoChanged (index : Int)
  | chatMessage (m : ChatMessage)
  | votesUpdated (votes : List String)
deriving DecidableEq

/-- One outbound emission: a destination and a payload. -/
abbrev Emit := Dest × Payload

/-- The fresh empty room constructed by getRoom on first reference. -/
def initialRoom : RoomState :=
  { participants := []
    queue := []
    messages := []
    votes := []
    currentVideoIndex := 0
    playerState := PlayerState.paused
    currentTime := 0 }

/-- The room:join handler: replace the participant in place when one with
the same id exists (findIndex then assignment), otherwise push; then unicast
the full updated room snapshot to the joiner and notify the others. -/
def joinRoom (room : RoomState) (participant : Participant) :
    RoomState × List Emit :=
  let participants :=
    match room.participants.findIdx? (fun p => p.id == participant.id) with
    | some i => room.participants.set i participant
    | none => room.participants ++ [participant]
  let room1 := { room with participants := participants }
  (room1,
   [(Dest.toSender,
     Payload.roomJoined room1.participants room1.queue room1.messages
       room1.votes room1.currentVideoIndex room1.playerState room1.currentTime),
    (Dest.toOthers, Payload.participantJoined participant)])

/-- The room:leave and disconnect handlers (identical room mutation): filter
the participant list by id and broadcast participant-left carrying the id to
the other connections. -/
def leave (room : RoomState) (pid : String) : RoomState × List Emit :=
  ({ room with participants := room.participants.filter (fun p => p.id != pid) },
   [(Dest.toOthers, Payload.participantLeft pid)])

/-- The player:action handler: play and pause set the player state, any
other action leaves it; the reported video time is always stored; a sync
event is broadcast to everyone in the room, sender included. -/
def playerAction (room : RoomState) (action : PlayerAction) (videoTime : ℚ)
    (now : ℚ) (senderId : String) : RoomState × List Emit :=
  let ps :=
    match action with
    | PlayerAction.play => PlayerState.playing
    | PlayerAction.pause => PlayerState.paused
    | PlayerAction.seek => room.playerState
  ({ room with playerState := ps, currentTime := videoTime },
   [(Dest.toAll, Payload.playerSync action videoTime now senderId)])

/-- The queue:change-video handler: set the index and reset the time with no
validation of any kind, then broadcast the index. -/
def queueChangeVideo (room : RoomState) (index : Int) : RoomState × List Emit :=
  ({ room with currentVideoIndex := index, currentTime := 0 },
   [(Dest.toAll, Payload.queueVideoChanged index)])

/-- The chat:send handler: push the message, shift one message off the front
when the length exceeds 100, broadcast the single message. -/
def chatSend (room : RoomState) (message : ChatMessage) : RoomState × List Emit :=
  let pushed := room.messages ++ [message]
  let msgs := if pushed.length > 100 then pushed.tail else pushed
  ({ room with messages := msgs }, [(Dest.toAll, Payload.chatMessage message)])

/-- JS Set.add on the insertion-ordered duplicate-free backing list. -/
def voteInsert (votes : List String) (pid : String) : List String :=
  if pid ∈ votes then votes else votes ++ [pid]

/-- The vote:next handler: return immediately on a falsy participant id
(modelled as the empty string); otherwise add the vote, broadcast the
updated vote set, and check consensus: when the vote count reaches the
participant count, either advance the queue (index below last) with the
video-changed, empty votes-updated and synthetic play sync broadcasts, or
at the end of the queue just clear the votes and broadcast the empty set. -/
def voteNext (room : RoomState) (pid : String) (now : ℚ) :
    RoomState × List Emit :=
  if pid = "" then (room, [])
  else
    let votes := voteInsert room.votes pid
    if votes.length ≥ room.participants.length then
      if room.currentVideoIndex < (room.queue.length : Int) - 1 then
        ({ room with
            currentVideoIndex := room.currentVideoIndex + 1
            currentTime := 0
            playerState := PlayerState.playing
            votes := [] },
         [(Dest.toAll, Payload.votesUpdated votes),
          (Dest.toAll, Payload.queueVideoChanged (room.currentVideoIndex + 1)),
          (Dest.toAll, Payload.votesUpdated []),
          (Dest.toAll, Payload.playerSync PlayerAction.play 0 now "system")])
      else
        ({ room with votes := [] },
         [(Dest.toAll, Payload.votesUpdated votes),
          (Dest.toAll, Payload.votesUpdated [])])
    else
      ({ room with votes := votes },
       [(Dest.toAll, Payload.votesUpdated votes)])

/-- Commands the client reconciliation issues to the local player. -/
inductive PlayerCmd where
  | seekTo (t : ℚ)
  | playVideo
  | pauseVideo
deriving DecidableEq

/-- The client's onPlayerSync subscription handler, translated from the
player component: wall-clock times (serverTime, localNow) are epoch
milliseconds, playback times are seconds, so the latency is divided by
1000; seek when the action is seek or the drift exceeds one second, then
apply play or pause. The returned list is the ordered sequence of commands
issued to the local player. -/
def onPlayerSyncHandler (action : PlayerAction) (videoTime serverTime : ℚ)
    (localNow currentPlayerTime : ℚ) : List PlayerCmd :=
  let latency := (localNow - serverTime) / 1000
  let targetTime := videoTime + latency
  (if action = PlayerAction.seek ∨ |currentPlayerTime - targetTime| > 1 then
      [PlayerCmd.seekTo targetTime]
    else [])
  ++ (match action with
      | PlayerAction.play => [PlayerCmd.playVideo]
      | PlayerAction.pause => [PlayerCmd.pauseVideo]
      | PlayerAction.seek => [])

/-- Fold a sequence of join events over a room, keeping only the state. -/
def joinAll (room : RoomState) (ps : List Participant) : RoomState :=
  ps.foldl (fun r p => (joinRoom r p).1) room

/-- Fold a sequence of chat:send events over a room, keeping only the state. -/
def sendAll (room : RoomState) (ms : List ChatMessage) : RoomState :=
  ms.foldl (fun r m => (chatSend r m).1) room

/-- Sample participant used by concrete instantiations. -/
def pAlice : Participant :=
  { id := "a", name := "Alice", isHost := true, isMuted := false, isCameraOff := false }

/-- Sample participant used by concrete instantiations. -/
def pBob : Participant :=
  { id := "b", name := "Bob", isHost := false, isMuted := false, isCameraOff := false }

/-- Sample participant used by concrete instantiations. -/
def pCarol : Participant :=
  { id := "c", name := "Carol", isHost := false, isMuted := true, isCameraOff := false }

/-- Sample queue item used by concrete instantiations. -/
def vid1 : QueueItem :=
  { id := "q1", videoId := "v1", title := "First", thumbnail := "t1",
    addedBy := "Alice", duration := none }

/-- Sample queue item used by concrete instantiations. -/
def vid2 : QueueItem :=
  { id := "q2", videoId := "v2", title := "Second", thumbnail := "t2",
    addedBy := "Bob", duration := none }

/-- Sample chat message used by concrete instantiations. -/
def sampleMsg : ChatMessage :=
  { id := "m1", senderId := "a", senderName := "Alice", content := "hi",
    timestamp := 0, isSystem := none }

/-- A room with two participants. -/
def roomAB : RoomState := { initialRoom with participants := [pAlice, pBob] }

/-- A room with one participant and a two-item queue at index 0. -/
def roomQ : RoomState :=
  { initialRoom with participants := [pAlice], queue := [vid1, vid2] }

/-- A room with one participant and a two-item queue at the last index. -/
def roomQLast : RoomState :=
  { initialRoom with
      participants := [pAlice]
      queue := [vid1, vid2]
      currentVideoIndex := 1 }

/-- C1: the leave operation (explicit leave or connection close) removes the
participant whose id equals the given id from the room's participants
sequence when present, broadcasts a participant-left notification carrying
that id, and leaves the participants sequence unchanged when no participant
has that id. -/
theorem leave_removes_by_id (room : RoomState) (pid : String) :
    ((leave room pid).2 = [(Dest.toOthers, Payload.participantLeft pid)])
    ∧ (∀ p ∈ (leave room pid).1.participants, p.id ≠ pid)
    ∧ ((leave room pid).1.participants.Sublist room.participants)
    ∧ (∀ p ∈ room.participants, p.id ≠ pid → p ∈ (leave room pid).1.participants)
    ∧ ((∀ p ∈ room.participants, p.id ≠ pid) → (leave room pid).1 = room) := by
  have hpart : (leave room pid).1.participants
      = room.participants.filter (fun p => p.id != pid) := rfl
  refine ⟨rfl, ?_, ?_, ?_, ?_⟩
  · intro p hp
    rw [hpart] at hp
    simpa using (List.mem_filter.mp hp).2
  · rw [hpart]
    exact List.filter_sublist _
  · intro p hp hne
    rw [hpart]
    exact List.mem_filter.mpr ⟨hp, by simpa using hne⟩
  · intro h
    have hf : room.participants.filter (fun p => p.id != pid) = room.participants := by
      apply List.filter_eq_self.mpr
      intro a ha
      simpa using h a ha
    show { room with participants := room.participants.filter (fun p => p.id != pid) } = room
    rw [hf]

/-- Witness for C1 at a concrete room that does not contain the id. -/
theorem leave_removes_by_id_witness :
    (∀ p ∈ roomAB.participants, p.id ≠ "z") ∧ (leave roomAB "z").1 = roomAB := by
  have h : ∀ p ∈ roomAB.participants, p.id ≠ "z" := by decide
  exact ⟨h, (leave_removes_by_id roomAB "z").2.2.2.2 h⟩

/-- C7: a play action sets playerState to playing, a pause action sets it to
paused, a seek action leaves it unchanged; every action stores the reported
video time and broadcasts one sync event, addressed to every connection in
the room including the originator, carrying the action, video time, server
time and initiator. -/
theorem playerAction_sync (room : RoomState) (a : PlayerAction)
    (vt now : ℚ) (sid : String) :
    ((playerAction room PlayerAction.play vt now sid).1.playerState = PlayerState.playing)
    ∧ ((playerAction room PlayerAction.pause vt now sid).1.playerState = PlayerState.paused)
    ∧ ((playerAction room PlayerAction.seek vt now sid).1.playerState = room.playerState)
    ∧ ((playerAction room a vt now sid).1.currentTime = vt)
    ∧ ((playerAction room a vt now sid).2 = [(Dest.toAll, Payload.playerSync a vt now sid)]) :=
  ⟨rfl, rfl, rfl, rfl, rfl⟩

/-- C10: the queue-change-video operation accepts every integer index,
including a negative one or one at or past the queue length: it
unconditionally stores the index, resets the current time to 0, leaves the
queue itself untouched and broadcasts a queue-video-changed event carrying
the index; there is no bounds validation and no error path. -/
theorem queueChangeVideo_unvalidated (room : RoomState) (index : Int) :
    ((queueChangeVideo room index).1.currentVideoIndex = index)
    ∧ ((queueChangeVideo room index).1.currentTime = 0)
    ∧ ((queueChangeVideo room index).1.queue = room.queue)
    ∧ ((queueChangeVideo room index).1.participants = room.participants)
    ∧ ((queueChangeVideo room index).2 = [(Dest.toAll, Payload.queueVideoChanged index)]) :=
  ⟨rfl, rfl, rfl, rfl, rfl⟩

/-- C8: a receiver that observes a sync event with serverTime T and
videoTime V at local wall-clock time T plus a delay of d seconds (wall-clock
times are epoch milliseconds, so the local clock reads T + 1000 * d)
computes the target playback time V + d, issues a seek to that target
exactly when the action is seek or the local playback time differs from
V + d by more than one second, and afterwards issues play or pause exactly
when the action is play or pause respectively. -/
theorem clientSync_latency (a : PlayerAction) (V T d lp : ℚ) :
    onPlayerSyncHandler a V T (T + 1000 * d) lp =
      (if a = PlayerAction.seek ∨ |lp - (V + d)| > 1 then
          [PlayerCmd.seekTo (V + d)]
        else [])
      ++ (match a with
          | PlayerAction.play => [PlayerCmd.playVideo]
          | PlayerAction.pause => [PlayerCmd.pauseVideo]
          | PlayerAction.seek => []) := by
  have h : (T + 1000 * d - T) / 1000 = d := by ring
  simp only [onPlayerSyncHandler, h]

/-- Mapping a function over a list after overwriting position i with an
element whose image equals the image of the element already there leaves the
mapped list unchanged. -/
theorem map_set_same {α β : Type} (f : α → β) :
    ∀ (l : List α) (i : Nat) (a : α) (h : i < l.length),
      f (l.get ⟨i, h⟩) = f a → (l.set i a).map f = l.map f := by
  intro l
  induction l with
  | nil =>
    intro i a h
    exact absurd h (Nat.not_lt_zero i)
  | cons x l ih =>
    intro i a h hf
    cases i with
    | zero =>
      simp only [List.get] at hf
      simp [List.set, ← hf]
    | succ j =>
      have hj : j < l.length := Nat.lt_of_succ_lt_succ h
      simp only [List.get] at hf
      simp [List.set, ih j a hj hf]

/-- One join step preserves pairwise-distinct participant ids. -/
theorem joinRoom_nodup (room : RoomState) (q : Participant)
    (h : (room.participants.map Participant.id).Nodup) :
    (((joinRoom room q).1.participants).map Participant.id).Nodup := by
  match hfi : room.participants.findIdx? (fun p => p.id == q.id) with
  | some i =>
    obtain ⟨hlt, hpi, -⟩ := List.findIdx?_eq_some_iff_getElem.mp hfi
    have heq : (joinRoom room q).1.participants = room.participants.set i q := by
      simp [joinRoom, hfi]
    rw [heq, map_set_same Participant.id room.participants i q hlt (by simpa using hpi)]
    exact h
  | none =>
    have heq : (joinRoom room q).1.participants = room.participants ++ [q] := by
      simp [joinRoom, hfi]
    have habs : q.id ∉ room.participants.map Participant.id := by
      intro hmem
      obtain ⟨p, hp, hpid⟩ := List.mem_map.mp hmem
      have := List.findIdx?_eq_none_iff.mp hfi p hp
      simp [hpid] at this
    rw [heq, List.map_append]
    simp only [List.map_cons, List.map_nil]
    exact List.Nodup.append h (List.nodup_singleton q.id)
      (by simpa [List.disjoint_singleton] using habs)

/-- C9: a join with an id already present replaces that entry in place at
its existing position (the participants list becomes a set at the found
index, so no new entry is appended and the length is unchanged); a join with
a fresh id appends the participant; and any finite sequence of joins starting
from a roster with pairwise-distinct ids yields a roster with
pairwise-distinct ids. -/
theorem join_unique_ids (room : RoomState) (q : Participant) (ps : List Participant) :
    ((∃ p ∈ room.participants, p.id = q.id) →
      ∃ i, ∃ h : i < room.participants.length,
        (room.participants.get ⟨i, h⟩).id = q.id ∧
        (joinRoom room q).1.participants = room.participants.set i q ∧
        (joinRoom room q).1.participants.length = room.participants.length)
    ∧ ((∀ p ∈ room.participants, p.id ≠ q.id) →
      (joinRoom room q).1.participants = room.participants ++ [q])
    ∧ ((room.participants.map Participant.id).Nodup →
      ((joinAll room ps).participants.map Participant.id).Nodup) := by
  refine ⟨?_, ?_, ?_⟩
  · rintro ⟨p, hp, hpid⟩
    match hfi : room.participants.findIdx? (fun r => r.id == q.id) with
    | none =>
      exfalso
      have := List.findIdx?_eq_none_iff.mp hfi p hp
      simp [hpid] at this
    | some i =>
      obtain ⟨hlt, hpi, -⟩ := List.findIdx?_eq_some_iff_getElem.mp hfi
      refine ⟨i, hlt, by simpa using hpi, ?_, ?_⟩
      · simp [joinRoom, hfi]
      · simp [joinRoom, hfi]
  · intro h
    have hfi : room.participants.findIdx? (fun r => r.id == q.id) = none := by
      apply List.findIdx?_eq_none_iff.mpr
      intro p hp
      simpa using h p hp
    simp [joinRoom, hfi]
  · intro h
    induction ps generalizing room with
    | nil => exact h
    | cons p ps ih =>
      have hstep := joinRoom_nodup room p h
      simpa [joinAll, List.foldl_cons] using ih (joinRoom room p).1 hstep

/-- Witness for C9 at a concrete roster with distinct ids. -/
theorem join_unique_ids_witness :
    ((roomAB.participants.map Participant.id).Nodup)
    ∧ (((joinAll roomAB [pAlice, pCarol]).participants.map Participant.id).Nodup) := by
  have h : (roomAB.participants.map Participant.id).Nodup := by decide
  exact ⟨h, (join_unique_ids roomAB pAlice [pAlice, pCarol]).2.2 h⟩

/-- The inserted participant id is always a member of the updated vote set. -/
theorem mem_voteInsert (votes : List String) (pid : String) :
    pid ∈ voteInsert votes pid := by
  unfold voteInsert
  split
  · assumption
  · simp

/-- The updated vote set is never empty. -/
theorem voteInsert_ne_nil (votes : List String) (pid : String) :
    voteInsert votes pid ≠ [] :=
  List.ne_nil_of_mem (mem_voteInsert votes pid)

/-- C2 counterexample: in a room whose roster is Alice and Bob, a voteNext
call with the id x, which belongs to no participant, changes the votes set
from empty to containing x, so the call is not a no-op for a non-roster id
and immediately after it the votes set holds an id that was never a member
of participants. -/
theorem voteNext_roster_cex :
    (∀ p ∈ roomAB.participants, p.id ≠ "x")
    ∧ roomAB.votes = []
    ∧ (voteNext roomAB "x" 0).1.votes = ["x"] := by decide

/-- C2 amended: a voteNext call with a falsy (empty) participantId is a
complete no-op; any other participantId is inserted into the votes set with
no roster-membership check whatsoever — the first broadcast always carries
the inserted set, and when quorum is not reached the stored votes equal that
inserted set even when the id belongs to no participant. -/
theorem voteNext_inserts_unconditionally (room : RoomState) (pid : String) (now : ℚ) :
    (voteNext room "" now = (room, []))
    ∧ (pid ≠ "" →
        (voteNext room pid now).2.head? =
          some (Dest.toAll, Payload.votesUpdated (voteInsert room.votes pid)))
    ∧ (pid ≠ "" →
        (voteInsert room.votes pid).length < room.participants.length →
        (voteNext room pid now).1.votes = voteInsert room.votes pid) := by
  refine ⟨by simp [voteNext], ?_, ?_⟩
  · intro h1
    by_cases h2 : (voteInsert room.votes pid).length ≥ room.participants.length
    · by_cases h3 : room.currentVideoIndex < (room.queue.length : Int) - 1
      · simp [voteNext, if_neg h1, if_pos h2, if_pos h3]
      · simp [voteNext, if_neg h1, if_pos h2, if_neg h3]
    · simp [voteNext, if_neg h1, if_neg h2]
  · intro h1 hlt
    have h2 : ¬ (voteInsert room.votes pid).length ≥ room.participants.length :=
      Nat.not_le_of_lt hlt
    simp [voteNext, if_neg h1, if_neg h2]

/-- Witness for the amended C2 at a concrete non-roster id. -/
theorem voteNext_inserts_unconditionally_witness :
    ("x" ≠ "") ∧ (voteNext roomAB "x" 0).1.votes = voteInsert roomAB.votes "x" := by
  have h1 : "x" ≠ "" := by decide
  exact ⟨h1, (voteNext_inserts_unconditionally roomAB "x" 0).2.2 h1 (by decide)⟩

/-- C3: for a voteNext call that casts a vote (non-falsy id), consensus
fires exactly when the size of the vote set after the insertion reaches the
number of participants at that moment, and whichever branch is then taken,
firing leaves the votes set empty and broadcasts the empty votes-updated
event; when quorum is not reached the votes set is the nonempty inserted set
and no empty votes-updated broadcast occurs. -/
theorem voteNext_quorum_iff (room : RoomState) (pid : String) (now : ℚ)
    (h1 : pid ≠ "") :
    ((voteNext room pid now).1.votes = [] ↔
      (voteInsert room.votes pid).length ≥ room.participants.length)
    ∧ ((Dest.toAll, Payload.votesUpdated []) ∈ (voteNext room pid now).2 ↔
      (voteInsert room.votes pid).length ≥ room.participants.length) := by
  have hne : voteInsert room.votes pid ≠ [] := voteInsert_ne_nil room.votes pid
  by_cases h2 : (voteInsert room.votes pid).length ≥ room.participants.length
  · by_cases h3 : room.currentVideoIndex < (room.queue.length : Int) - 1
    · simp [voteNext, if_neg h1, if_pos h2, if_pos h3, h2]
    · simp [voteNext, if_neg h1, if_pos h2, if_neg h3, h2]
  · simp [voteNext, if_neg h1, if_neg h2, hne, hne.symm, h2]

/-- Witness for C3 at a concrete quorum-reaching vote. -/
theorem voteNext_quorum_iff_witness :
    (voteNext roomQ "a" 0).1.votes = [] := by
  exact ((voteNext_quorum_iff roomQ "a" 0 (by decide)).1).mpr (by decide)

/-- C4: when a cast vote reaches quorum while the index is strictly below
the last queue position, the engine increments the index, resets the time
to 0, sets the player state to playing, clears the votes, and broadcasts in
order the updated (inserted) vote set, the video-changed event with the new
index, the empty votes-updated event, and the synthetic sync event with
action play, video time 0, server time equal to the broadcast time and
initiator system. -/
theorem voteNext_consensus_advances (room : RoomState) (pid : String) (now : ℚ)
    (h1 : pid ≠ "")
    (h2 : (voteInsert room.votes pid).length ≥ room.participants.length)
    (h3 : room.currentVideoIndex < (room.queue.length : Int) - 1) :
    (voteNext room pid now).1 =
      { room with
          currentVideoIndex := room.currentVideoIndex + 1
          currentTime := 0
          playerState := PlayerState.playing
          votes := [] }
    ∧ (voteNext room pid now).2 =
      [(Dest.toAll, Payload.votesUpdated (voteInsert room.votes pid)),
       (Dest.toAll, Payload.queueVideoChanged (room.currentVideoIndex + 1)),
       (Dest.toAll, Payload.votesUpdated []),
       (Dest.toAll, Payload.playerSync PlayerAction.play 0 now "system")] := by
  simp [voteNext, if_neg h1, if_pos h2, if_pos h3]

/-- Witness for C4 at a concrete advancing vote. -/
theorem voteNext_consensus_advances_witness :
    (voteNext roomQ "a" 0).1.currentVideoIndex = 1
    ∧ (voteNext roomQ "a" 0).1.playerState = PlayerState.playing := by
  have h := voteNext_consensus_advances roomQ "a" 0 (by decide) (by decide) (by decide)
  rw [h.1]
  exact ⟨by decide, rfl⟩

/-- C5: when a cast vote reaches quorum while the index is already at or
past the last queue position, the engine clears the votes, leaves every
other field (in particular the index) unchanged, and broadcasts only the
inserted vote set followed by the empty votes-updated event — no sync event
and no video-changed event. -/
theorem voteNext_consensus_end_of_queue (room : RoomState) (pid : String) (now : ℚ)
    (h1 : pid ≠ "")
    (h2 : (voteInsert room.votes pid).length ≥ room.participants.length)
    (h3 : ¬ room.currentVideoIndex < (room.queue.length : Int) - 1) :
    (voteNext room pid now).1 = { room with votes := [] }
    ∧ (voteNext room pid now).1.currentVideoIndex = room.currentVideoIndex
    ∧ (voteNext room pid now).2 =
      [(Dest.toAll, Payload.votesUpdated (voteInsert room.votes pid)),
       (Dest.toAll, Payload.votesUpdated [])] := by
  simp [voteNext, if_neg h1, if_pos h2, if_neg h3]

/-- Witness for C5 at a concrete end-of-queue vote. -/
theorem voteNext_consensus_end_of_queue_witness :
    (voteNext roomQLast "a" 0).1.currentVideoIndex = 1
    ∧ (voteNext roomQLast "a" 0).2 =
      [(Dest.toAll, Payload.votesUpdated ["a"]),
       (Dest.toAll, Payload.votesUpdated [])] := by
  have h := voteNext_consensus_end_of_queue roomQLast "a" 0
    (by decide) (by decide) (by decide)
  refine ⟨?_, ?_⟩
  · rw [h.2.1]
    decide
  · rw [h.2.2]
    decide

/-- Folding chat sends over a buffer that respects the 100-message capacity
yields exactly the suffix of the arrival-ordered concatenation of old and
new messages that fits in the capacity. -/
theorem sendAll_messages_eq (ms : List ChatMessage) :
    ∀ room : RoomState, room.messages.length ≤ 100 →
    (sendAll room ms).messages =
      (room.messages ++ ms).drop (room.messages.length + ms.length - 100) := by
  induction ms with
  | nil =>
    intro room h
    simp only [sendAll, List.foldl_nil, List.append_nil, List.length_nil, Nat.add_zero]
    rw [Nat.sub_eq_zero_of_le h, List.drop_zero]
  | cons m ms ih =>
    intro room h
    have hstep : sendAll room (m :: ms) = sendAll (chatSend room m).1 ms := rfl
    by_cases hlen : (room.messages ++ [m]).length > 100
    · have hn : room.messages.length = 100 := by
        simp only [List.length_append, List.length_cons, List.length_nil] at hlen
        omega
      have hmsgs : (chatSend room m).1.messages = (room.messages ++ [m]).tail := by
        show (if (room.messages ++ [m]).length > 100 then (room.messages ++ [m]).tail
            else room.messages ++ [m]) = (room.messages ++ [m]).tail
        rw [if_pos hlen]
      have hlen1 : (chatSend room m).1.messages.length ≤ 100 := by
        rw [hmsgs]
        simp only [List.length_tail, List.length_append, List.length_cons, List.length_nil]
        omega
      rw [hstep, ih _ hlen1, hmsgs]
      rw [← List.drop_one]
      rw [← List.drop_append_of_le_length (by simp)]
      rw [List.drop_drop]
      have hlist : (room.messages ++ [m]) ++ ms = room.messages ++ (m :: ms) := by
        rw [List.append_assoc]
        rfl
      rw [hlist]
      have harith : 1 + ((List.drop 1 (room.messages ++ [m])).length + ms.length - 100)
          = room.messages.length + (m :: ms).length - 100 := by
        simp only [List.length_drop, List.length_append, List.length_cons, List.length_nil]
        omega
      rw [harith]
    · have hmsgs : (chatSend room m).1.messages = room.messages ++ [m] := by
        show (if (room.messages ++ [m]).length > 100 then (room.messages ++ [m]).tail
            else room.messages ++ [m]) = room.messages ++ [m]
        rw [if_neg hlen]
      have hlen1 : (chatSend room m).1.messages.length ≤ 100 := by
        rw [hmsgs]
        simp only [List.length_append, List.length_cons, List.length_nil] at hlen ⊢
        omega
      rw [hstep, ih _ hlen1, hmsgs]
      have hlist : (room.messages ++ [m]) ++ ms = room.messages ++ (m :: ms) := by
        rw [List.append_assoc]
        rfl
      have harith : (room.messages ++ [m]).length + ms.length - 100
          = room.messages.length + (m :: ms).length - 100 := by
        simp only [List.length_append, List.length_cons, List.length_nil]
        omega
      rw [hlist, harith]

/-- C6: starting from any room whose message buffer respects the 100-message
capacity (the data model's bound; a fresh room starts empty and every send
maintains it), after any finite sequence of chat sends the messages list is
exactly the suffix of the arrival-ordered concatenation of old and new
messages that fits in 100 slots: its length never exceeds 100, equals
min(total, 100), and the retained messages are the most recently sent ones
in arrival order, the oldest having been evicted first. -/
theorem chat_ring_buffer_bound (room : RoomState) (ms : List ChatMessage)
    (h : room.messages.length ≤ 100) :
    (sendAll room ms).messages =
      (room.messages ++ ms).drop (room.messages.length + ms.length - 100)
    ∧ (sendAll room ms).messages.length ≤ 100
    ∧ (sendAll room ms).messages.length = min (room.messages.length + ms.length) 100 := by
  have h1 := sendAll_messages_eq ms room h
  refine ⟨h1, ?_, ?_⟩ <;>
    rw [h1, List.length_drop, List.length_append] <;> omega

/-- Witness for C6 at the fresh room and one message. -/
theorem chat_ring_buffer_bound_witness :
    initialRoom.messages.length ≤ 100
    ∧ (sendAll initialRoom [sampleMsg]).messages = [sampleMsg] := by
  have h : initialRoom.messages.length ≤ 100 := by decide
  refine ⟨h, ?_⟩
  rw [(chat_ring_buffer_bound initialRoom [sampleMsg] h).1]
  rfl
